import Mathlib

/-!
# Time support shims of swift-distributed-tracing

Shallow embedding of

* `Sources/CTracingTimeSupport/tracing_time_support.c`
  (`SDTAbsoluteTimeGetCurrent`, `kCFAbsoluteTimeIntervalSince1970`,
  `kCFAbsoluteTimeIntervalSince1904`, `NSEC_PER_SEC`),
* `Sources/CTracingTimeSupport/include/tracing_time_support.h`
  (`SDTTimeInterval`, `SDTAbsoluteTime`),
* `Sources/_CWASI/include/_CWASI.h` (`CWASI_clock_gettime_realtime`).

## Arithmetic of `double`

`SDTTimeInterval` is `typedef double`.  A value of that type is embedded as
the rational number it denotes, and every C operation on doubles (conversion
of an integer, `-`, `*`, `+=`, reading the literal `1.0E-6`) is embedded as
the exact rational operation followed by the rounding of the chosen
`DoubleSemantics`:

* `DoubleSemantics.binary64`: IEEE 754 binary64, round to nearest, ties to
  even, with gradual underflow, one rounding per operation (x86-64,
  WebAssembly);
* `DoubleSemantics.binary64Contracted`: the same, with the product and the
  sum of `ret += 1.0E-6 * x` contracted into one fused multiply-add, so that
  the product is not rounded (what a C compiler may do under
  `FP_CONTRACT`, for instance on arm64);
* `DoubleSemantics.exact`: no rounding.  No build of the source computes this
  way: it is the reference arithmetic in which the specification writes its
  formulas, kept to compare the double with the formula.

The behaviour of the code is what is proved at `binary64` and
`binary64Contracted`; every property of the returned value is stated for these
two, and `exact` only adds the formula they approximate.

Overflow is not modelled: `time_t` and `suseconds_t` have at most 64 bits, so
every intermediate value of the program is below `2 ^ 65` in magnitude.

The system calls `gettimeofday` and `clock_gettime` are not part of the
repository; their outcome (returned status and buffer content after the call)
is an input of the embedded functions.
-/

namespace SDT

/-! ## Data model -/

/-- Embedding of `struct timeval` of `<sys/time.h>`: seconds and microseconds. -/
structure timeval where
  tv_sec : ℤ
  tv_usec : ℤ
  deriving DecidableEq

/-- Embedding of `struct timespec` of `<time.h>`: seconds and nanoseconds. -/
structure timespec where
  tv_sec : ℤ
  tv_nsec : ℤ
  deriving DecidableEq

/-- Embedding of `typedef double SDTTimeInterval`: the rational a double denotes. -/
abbrev SDTTimeInterval := ℚ

/-- Embedding of `typedef SDTTimeInterval SDTAbsoluteTime`. -/
abbrev SDTAbsoluteTime := SDTTimeInterval

/-- Fallback value of `NSEC_PER_SEC` in `tracing_time_support.c`: `1000000000UL`. -/
def NSEC_PER_SEC : ℕ := 1000000000

/-! ## Rounding -/

/-- Nearest integer of a rational, a tie going to the even neighbour. -/
def roundHalfEven (q : ℚ) : ℤ :=
  let f := ⌊q⌋
  let r := q - f
  if r < 1 / 2 then f
  else if 1 / 2 < r then f + 1
  else if f % 2 = 0 then f else f + 1

/-- Exponent of the binade of `x` in binary64: `⌊log₂ |x|⌋`, and `-1022` (the
smallest normal exponent) for subnormal numbers. -/
def binade (x : ℚ) : ℤ := max (Int.log 2 |x|) (-1022)

/-- Rounding of a rational to IEEE 754 binary64 (53 bit significand, round to
nearest, ties to even, gradual underflow, no overflow). -/
def roundBinary64 (x : ℚ) : ℚ :=
  let e : ℤ := binade x - 52
  roundHalfEven (x / 2 ^ e) * 2 ^ e

/-- Arithmetic in which the operations on `double` are evaluated: `binary64` and
`binary64Contracted` are the arithmetics of the compiled code, `exact` is the
unrounded reference arithmetic of the specification's formulas. -/
inductive DoubleSemantics where
  | exact
  | binary64
  | binary64Contracted
  deriving DecidableEq

/-- Rounding applied to the exact result of an operation on `double`. -/
def DoubleSemantics.round : DoubleSemantics → ℚ → ℚ
  | .exact, x => x
  | .binary64, x => roundBinary64 x
  | .binary64Contracted, x => roundBinary64 x

/-- Rounding applied to a product that is an operand of `+=`: none when the
product and the sum are contracted into a fused multiply-add. -/
def DoubleSemantics.roundProduct : DoubleSemantics → ℚ → ℚ
  | .exact, x => x
  | .binary64, x => roundBinary64 x
  | .binary64Contracted, x => x

/-! ## `tracing_time_support.c` -/

/-- Source: `const SDTTimeInterval kCFAbsoluteTimeIntervalSince1970 = 978307200.0L;` -/
def kCFAbsoluteTimeIntervalSince1970 : SDTTimeInterval := 978307200

/-- Source: `const SDTTimeInterval kCFAbsoluteTimeIntervalSince1904 = 3061152000.0L;` -/
def kCFAbsoluteTimeIntervalSince1904 : SDTTimeInterval := 3061152000

/-- Outcome of the call `gettimeofday(&tv, NULL)`: the returned status code and
the content of the buffer `tv` after the call. -/
structure GettimeofdayOutcome where
  status : ℤ
  tv : timeval
  deriving DecidableEq

/-- Embedding of `SDTAbsoluteTimeGetCurrent`:
```
gettimeofday(&tv, NULL);
ret = (SDTTimeInterval)tv.tv_sec - kCFAbsoluteTimeIntervalSince1970;
ret += (1.0E-6 * (SDTTimeInterval)tv.tv_usec);
return ret;
```
The status code of `gettimeofday` is dropped, as in the source. -/
def SDTAbsoluteTimeGetCurrent (a : DoubleSemantics) (gettimeofday : GettimeofdayOutcome) :
    SDTAbsoluteTime :=
  let tv := gettimeofday.tv
  let ret := a.round (a.round (tv.tv_sec : ℚ) - kCFAbsoluteTimeIntervalSince1970)
  a.round (ret + a.roundProduct (a.round (1 / 1000000) * a.round (tv.tv_usec : ℚ)))

/-- First summand of `SDTAbsoluteTimeGetCurrent`:
`(SDTTimeInterval)tv.tv_sec - kCFAbsoluteTimeIntervalSince1970`. -/
def secondsTerm (a : DoubleSemantics) (tv_sec : ℤ) : ℚ :=
  a.round (a.round (tv_sec : ℚ) - kCFAbsoluteTimeIntervalSince1970)

/-- Second summand of `SDTAbsoluteTimeGetCurrent`:
`1.0E-6 * (SDTTimeInterval)tv.tv_usec`. -/
def microTerm (a : DoubleSemantics) (tv_usec : ℤ) : ℚ :=
  a.roundProduct (a.round (1 / 1000000) * a.round (tv_usec : ℚ))

/-- The clock reading `(tv_sec, tv_usec)` delivered by a successful `gettimeofday`. -/
def reading (tv_sec tv_usec : ℤ) : GettimeofdayOutcome := ⟨0, ⟨tv_sec, tv_usec⟩⟩

/-- A normalised reading: `0 ≤ tv_usec < 1000000`. -/
def timeval.normalised (tv : timeval) : Prop := 0 ≤ tv.tv_usec ∧ tv.tv_usec < 1000000

instance (tv : timeval) : Decidable tv.normalised := by
  unfold timeval.normalised; infer_instance

/-- Lexicographic order on readings: the clock did not go backwards. -/
def timeval.le (x y : timeval) : Prop :=
  x.tv_sec < y.tv_sec ∨ (x.tv_sec = y.tv_sec ∧ x.tv_usec ≤ y.tv_usec)

instance (x y : timeval) : Decidable (x.le y) := by
  unfold timeval.le; infer_instance

/-- Strict lexicographic order on readings: a strictly later reading. -/
def timeval.lt (x y : timeval) : Prop :=
  x.tv_sec < y.tv_sec ∨ (x.tv_sec = y.tv_sec ∧ x.tv_usec < y.tv_usec)

instance (x y : timeval) : Decidable (x.lt y) := by
  unfold timeval.lt; infer_instance

/-- Microseconds since the Unix epoch denoted by a reading. -/
def timeval.micros (tv : timeval) : ℤ := tv.tv_sec * 1000000 + tv.tv_usec

/-! ## `_CWASI.h` -/

/-- Clock identifiers of `<time.h>`. -/
inductive clockid_t where
  | CLOCK_REALTIME
  | CLOCK_MONOTONIC
  | CLOCK_PROCESS_CPUTIME_ID
  | CLOCK_THREAD_CPUTIME_ID
  deriving DecidableEq

/-- Outcome of a call `clock_gettime(id, tp)`: the returned status code and the
content of the buffer `*tp` after the call. -/
structure ClockGettimeOutcome where
  status : ℤ
  tp : timespec
  deriving DecidableEq

/-- The platform primitive `clock_gettime`, for a platform whose clock state has
type `σ`: from the state, the clock id and the content of the caller's buffer
before the call to the outcome of the call. -/
abbrev ClockGettime (σ : Type) := σ → clockid_t → timespec → ClockGettimeOutcome

/-- Embedding of
```
static inline void CWASI_clock_gettime_realtime(struct timespec *tv) {
    clock_gettime(CLOCK_REALTIME, tv);
}
```
The result is the content of the caller's buffer after the wrapper returns. -/
def CWASI_clock_gettime_realtime {σ : Type} (clock_gettime : ClockGettime σ) (s : σ)
    (tv : timespec) : timespec :=
  (clock_gettime s clockid_t.CLOCK_REALTIME tv).tp

/-- A valid nanoseconds field: `0 ≤ tv_nsec ≤ 999999999`. -/
def timespec.validNsec (tp : timespec) : Prop := 0 ≤ tp.tv_nsec ∧ tp.tv_nsec ≤ 999999999

instance (tp : timespec) : Decidable tp.validNsec := by
  unfold timespec.validNsec; infer_instance

/-- A model platform for concrete evaluation: the state is the number of
nanoseconds since the Unix epoch, only the realtime clock is supported. -/
def modelClock : ClockGettime ℕ := fun s id buf =>
  match id with
  | .CLOCK_REALTIME => ⟨0, ⟨(s / NSEC_PER_SEC : ℕ), (s % NSEC_PER_SEC : ℕ)⟩⟩
  | _ => ⟨-1, buf⟩

/-! ## Calendar computation of the specification -/

/-- Gregorian leap year rule. -/
def isLeapYear (y : ℕ) : Bool := (y % 4 == 0 && y % 100 != 0) || y % 400 == 0

/-- Number of days of a Gregorian year. -/
def daysInYear (y : ℕ) : ℕ := if isLeapYear y then 366 else 365

/-- Days from 1 January of year `a` to 1 January of year `b`. -/
def daysBetweenYears (a b : ℕ) : ℕ := ((List.range' a (b - a)).map daysInYear).sum

/-- Seconds from `a-01-01T00:00:00Z` to `b-01-01T00:00:00Z`, 86400 seconds a day,
no leap seconds. -/
def secondsBetweenYears (a b : ℕ) : ℕ := daysBetweenYears a b * 86400

/-- Number of leap years among the years `a, ..., b - 1`. -/
def leapYearsBetween (a b : ℕ) : ℕ := ((List.range' a (b - a)).filter isLeapYear).length


/-! ## Lemmas on rounding -/

theorem roundHalfEven_intCast (n : ℤ) : roundHalfEven (n : ℚ) = n := by
  simp [roundHalfEven]

theorem floor_le_roundHalfEven (q : ℚ) : ⌊q⌋ ≤ roundHalfEven q := by
  unfold roundHalfEven
  dsimp only
  split_ifs <;> omega

theorem roundHalfEven_le_floor_succ (q : ℚ) : roundHalfEven q ≤ ⌊q⌋ + 1 := by
  unfold roundHalfEven
  dsimp only
  split_ifs <;> omega

theorem roundHalfEven_mono {q r : ℚ} (h : q ≤ r) : roundHalfEven q ≤ roundHalfEven r := by
  have hf : ⌊q⌋ ≤ ⌊r⌋ := Int.floor_mono h
  rcases lt_or_eq_of_le hf with hlt | heq
  · calc roundHalfEven q ≤ ⌊q⌋ + 1 := roundHalfEven_le_floor_succ q
      _ ≤ ⌊r⌋ := hlt
      _ ≤ roundHalfEven r := floor_le_roundHalfEven r
  · have hq : q - ⌊q⌋ ≤ r - ⌊r⌋ := by rw [heq]; linarith
    unfold roundHalfEven
    dsimp only
    split_ifs <;> first | omega | (exfalso; linarith)

theorem roundHalfEven_of_abs_lt (q : ℚ) (n : ℤ) (h : |q - n| < 1 / 2) :
    roundHalfEven q = n := by
  rw [abs_lt] at h
  obtain ⟨h1, h2⟩ := h
  rcases le_or_lt (n : ℚ) q with hge | hlt
  · have hf : ⌊q⌋ = n := by
      rw [Int.floor_eq_iff]
      constructor <;> linarith
    unfold roundHalfEven
    dsimp only
    rw [hf, if_pos (by linarith)]
  · have hf : ⌊q⌋ = n - 1 := by
      rw [Int.floor_eq_iff]
      push_cast
      constructor <;> linarith
    unfold roundHalfEven
    dsimp only
    rw [hf]
    push_cast
    rw [if_neg (by linarith), if_pos (by linarith)]
    ring

theorem binade_ge (x : ℚ) : -1022 ≤ binade x := le_max_right _ _

theorem log_le_binade (x : ℚ) : Int.log 2 |x| ≤ binade x := le_max_left _ _

theorem abs_lt_zpow_binade (x : ℚ) : |x| < 2 ^ (binade x + 1) := by
  have h := Int.lt_zpow_succ_log_self (R := ℚ) (b := 2) (by norm_num) |x|
  have h2 : ((2 : ℕ) : ℚ) ^ (Int.log 2 |x| + 1) ≤ 2 ^ (binade x + 1) := by
    rw [Nat.cast_ofNat]
    exact zpow_le_zpow_right₀ (by norm_num) (by have := log_le_binade x; omega)
  exact lt_of_lt_of_le h h2

theorem binade_eq_of (x : ℚ) (k : ℤ) (hk : -1022 ≤ k) (h1 : 2 ^ k ≤ |x|)
    (h2 : |x| < 2 ^ (k + 1)) : binade x = k := by
  have hpos : 0 < |x| := lt_of_lt_of_le (by positivity) h1
  have ha : k ≤ Int.log 2 |x| := by
    rw [← Int.zpow_le_iff_le_log (by norm_num) hpos]
    simpa using h1
  have hb : Int.log 2 |x| < k + 1 := by
    rw [← Int.lt_zpow_iff_log_lt (by norm_num) hpos]
    simpa using h2
  unfold binade
  omega

theorem binade_mono {x y : ℚ} (hx : x ≠ 0) (h : |x| ≤ |y|) : binade x ≤ binade y := by
  have hpos : 0 < |x| := abs_pos.mpr hx
  have := Int.log_mono_right (b := 2) hpos h
  unfold binade
  omega

theorem zpow_binade_le_of_lt {x y : ℚ} (hy0 : y ≠ 0) (h : binade x < binade y) :
    2 ^ binade y ≤ |y| := by
  have hx := binade_ge x
  have hy : binade y = Int.log 2 |y| := by
    unfold binade at h ⊢
    omega
  have := Int.zpow_log_le_self (R := ℚ) (b := 2) (by norm_num) (abs_pos.mpr hy0)
  rw [hy]
  simpa using this

theorem roundBinary64_zero : roundBinary64 0 = 0 := by
  simp [roundBinary64, roundHalfEven]

/-- Scaled bounds carry over to the rounded value. -/
theorem roundBinary64_le_of_scaled_le (x : ℚ) (n : ℤ)
    (h : x / 2 ^ (binade x - 52) ≤ n) : roundBinary64 x ≤ n * 2 ^ (binade x - 52) := by
  unfold roundBinary64
  dsimp only
  have h1 : roundHalfEven (x / 2 ^ (binade x - 52)) ≤ n := by
    have := roundHalfEven_mono h
    rwa [roundHalfEven_intCast] at this
  have h2 : (0 : ℚ) < 2 ^ (binade x - 52) := by positivity
  exact mul_le_mul_of_nonneg_right (by exact_mod_cast h1) h2.le

theorem le_roundBinary64_of_le_scaled (x : ℚ) (n : ℤ)
    (h : (n : ℚ) ≤ x / 2 ^ (binade x - 52)) : n * 2 ^ (binade x - 52) ≤ roundBinary64 x := by
  unfold roundBinary64
  dsimp only
  have h1 : n ≤ roundHalfEven (x / 2 ^ (binade x - 52)) := by
    have := roundHalfEven_mono h
    rwa [roundHalfEven_intCast] at this
  have h2 : (0 : ℚ) < 2 ^ (binade x - 52) := by positivity
  exact mul_le_mul_of_nonneg_right (by exact_mod_cast h1) h2.le

theorem zpow_split (k : ℤ) : (2 : ℚ) ^ (k + 1) = 2 ^ (53 : ℕ) * 2 ^ (k - 52) := by
  rw [← zpow_natCast, ← zpow_add₀ (by norm_num)]
  congr 1
  omega

theorem zpow_split_low (k : ℤ) : (2 : ℚ) ^ k = 2 ^ (52 : ℕ) * 2 ^ (k - 52) := by
  rw [← zpow_natCast, ← zpow_add₀ (by norm_num)]
  congr 1
  omega

/-- A positive number is rounded into the closure of its binade. -/
theorem roundBinary64_le_top {x : ℚ} (hx : 0 < x) : roundBinary64 x ≤ 2 ^ (binade x + 1) := by
  have h := abs_lt_zpow_binade x
  rw [abs_of_pos hx, zpow_split] at h
  have h2 : (0 : ℚ) < 2 ^ (binade x - 52) := by positivity
  have h3 : x / 2 ^ (binade x - 52) ≤ ((2 ^ 53 : ℤ) : ℚ) := by
    rw [div_le_iff₀ h2]
    push_cast
    exact h.le
  have := roundBinary64_le_of_scaled_le x (2 ^ 53) h3
  rw [zpow_split]
  push_cast at this
  exact this

theorem bot_le_roundBinary64 {x : ℚ} (h : 2 ^ binade x ≤ x) :
    2 ^ binade x ≤ roundBinary64 x := by
  rw [zpow_split_low] at h
  have h2 : (0 : ℚ) < 2 ^ (binade x - 52) := by positivity
  have h3 : ((2 ^ 52 : ℤ) : ℚ) ≤ x / 2 ^ (binade x - 52) := by
    rw [le_div_iff₀ h2]
    push_cast
    exact h
  have := le_roundBinary64_of_le_scaled x (2 ^ 52) h3
  rw [zpow_split_low]
  push_cast at this
  exact this

theorem roundBinary64_nonneg {x : ℚ} (hx : 0 ≤ x) : 0 ≤ roundBinary64 x := by
  have h2 : (0 : ℚ) < 2 ^ (binade x - 52) := by positivity
  have := le_roundBinary64_of_le_scaled x 0 (by
    push_cast
    exact div_nonneg hx h2.le)
  simpa using this

theorem roundBinary64_nonpos {x : ℚ} (hx : x ≤ 0) : roundBinary64 x ≤ 0 := by
  have h2 : (0 : ℚ) < 2 ^ (binade x - 52) := by positivity
  have := roundBinary64_le_of_scaled_le x 0 (by
    push_cast
    exact div_nonpos_of_nonpos_of_nonneg hx h2.le)
  simpa using this

theorem roundBinary64_mono_pos {x y : ℚ} (hx : 0 < x) (h : x ≤ y) :
    roundBinary64 x ≤ roundBinary64 y := by
  have hy : 0 < y := lt_of_lt_of_le hx h
  have hb : binade x ≤ binade y :=
    binade_mono hx.ne' (by rwa [abs_of_pos hx, abs_of_pos hy])
  rcases lt_or_eq_of_le hb with hlt | heq
  · have h1 := roundBinary64_le_top hx
    have h2 := zpow_binade_le_of_lt hy.ne' (x := x) hlt
    rw [abs_of_pos hy] at h2
    have h3 := bot_le_roundBinary64 h2
    have h4 : (2 : ℚ) ^ (binade x + 1) ≤ 2 ^ binade y :=
      zpow_le_zpow_right₀ (by norm_num) (by omega)
    linarith
  · unfold roundBinary64
    dsimp only
    rw [heq]
    have h2 : (0 : ℚ) < 2 ^ (binade y - 52) := by positivity
    have h3 : x / 2 ^ (binade y - 52) ≤ y / 2 ^ (binade y - 52) :=
      div_le_div_of_nonneg_right h h2.le
    have := roundHalfEven_mono h3
    exact mul_le_mul_of_nonneg_right (by exact_mod_cast this) h2.le

theorem roundHalfEven_neg (q : ℚ) : roundHalfEven (-q) = -roundHalfEven q := by
  rcases eq_or_lt_of_le (Int.floor_le q) with heq | hlt
  · rw [← heq, ← Int.cast_neg, roundHalfEven_intCast, roundHalfEven_intCast]
  · have hlt2 := Int.lt_floor_add_one q
    have hf : ⌊-q⌋ = -⌊q⌋ - 1 := by
      rw [Int.floor_eq_iff]
      push_cast
      constructor <;> linarith
    unfold roundHalfEven
    dsimp only
    rw [hf]
    push_cast
    split_ifs <;> first | omega | (exfalso; linarith)

theorem binade_neg (x : ℚ) : binade (-x) = binade x := by
  unfold binade
  rw [abs_neg]

theorem roundBinary64_neg (x : ℚ) : roundBinary64 (-x) = -roundBinary64 x := by
  unfold roundBinary64
  dsimp only
  rw [binade_neg, neg_div, roundHalfEven_neg]
  push_cast
  ring

/-- Rounding to binary64 is monotone. -/
theorem roundBinary64_mono {x y : ℚ} (h : x ≤ y) : roundBinary64 x ≤ roundBinary64 y := by
  rcases lt_trichotomy 0 x with hx | hx | hx
  · exact roundBinary64_mono_pos hx h
  · subst hx
    rw [roundBinary64_zero]
    exact roundBinary64_nonneg h
  · rcases le_or_lt 0 y with hy | hy
    · exact le_trans (roundBinary64_nonpos hx.le) (roundBinary64_nonneg hy)
    · have h1 : -y ≤ -x := neg_le_neg h
      have h2 := roundBinary64_mono_pos (neg_pos.mpr hy) h1
      rw [roundBinary64_neg, roundBinary64_neg] at h2
      exact neg_le_neg_iff.mp h2

/-- A number with a significand of fewer than 54 bits and an exponent in range is
a binary64 number: rounding leaves it unchanged. -/
theorem roundBinary64_representable (m k : ℤ) (hm : |m| < 2 ^ 53) (hk : -1074 ≤ k) :
    roundBinary64 (m * 2 ^ k) = m * 2 ^ k := by
  rcases eq_or_ne m 0 with rfl | hm0
  · simp [roundBinary64_zero]
  · have hpos : (0 : ℚ) < |(m : ℚ) * 2 ^ k| := by
      apply abs_pos.mpr
      have : (m : ℚ) ≠ 0 := by exact_mod_cast hm0
      positivity
    have hlt : |(m : ℚ) * 2 ^ k| < ((2 : ℕ) : ℚ) ^ (53 + k) := by
      rw [abs_mul, abs_of_pos (by positivity : (0 : ℚ) < 2 ^ k), Nat.cast_ofNat,
        zpow_add₀ (by norm_num)]
      have : |(m : ℚ)| < 2 ^ (53 : ℤ) := by
        have := (Int.cast_lt (R := ℚ)).mpr hm
        push_cast at this
        exact_mod_cast this
      exact mul_lt_mul_of_pos_right this (by positivity)
    have hlog : Int.log 2 |(m : ℚ) * 2 ^ k| < 53 + k :=
      (Int.lt_zpow_iff_log_lt (by norm_num) hpos).mp hlt
    have he : binade ((m : ℚ) * 2 ^ k) - 52 ≤ k := by
      unfold binade
      omega
    obtain ⟨d, hd⟩ := Int.le.dest he
    have hk2 : (2 : ℚ) ^ k = 2 ^ d * 2 ^ (binade ((m : ℚ) * 2 ^ k) - 52) := by
      rw [← zpow_natCast, ← zpow_add₀ (by norm_num)]
      congr 1
      omega
    unfold roundBinary64
    dsimp only
    have h2 : (0 : ℚ) < 2 ^ (binade ((m : ℚ) * 2 ^ k) - 52) := by positivity
    have hq : (m : ℚ) * 2 ^ k / 2 ^ (binade ((m : ℚ) * 2 ^ k) - 52) = ((m * 2 ^ d : ℤ) : ℚ) := by
      rw [div_eq_iff h2.ne']
      push_cast
      rw [mul_assoc, ← hk2]
    rw [hq, roundHalfEven_intCast]
    push_cast
    rw [mul_assoc, ← hk2]

/-- Integers up to `2 ^ 53` in magnitude are binary64 numbers. -/
theorem roundBinary64_intCast (n : ℤ) (h : |n| ≤ 2 ^ 53) : roundBinary64 (n : ℚ) = n := by
  rcases lt_or_eq_of_le h with hlt | heq
  · have := roundBinary64_representable n 0 hlt (by norm_num)
    simpa using this
  · rcases abs_eq (by norm_num : (0 : ℤ) ≤ 2 ^ 53) |>.mp heq with h1 | h1
    · have := roundBinary64_representable 1 53 (by norm_num) (by norm_num)
      rw [h1]
      norm_num at this ⊢
      exact this
    · have := roundBinary64_representable (-1) 53 (by norm_num) (by norm_num)
      rw [h1]
      norm_num at this ⊢
      exact this

/-- Evaluation of the rounding at a number whose binade `k` and nearest scaled
integer `n` are given. -/
theorem roundBinary64_eval (x : ℚ) (k n : ℤ) (hk : -1022 ≤ k) (h1 : 2 ^ k ≤ |x|)
    (h2 : |x| < 2 ^ (k + 1)) (h3 : |x / 2 ^ (k - 52) - n| < 1 / 2) :
    roundBinary64 x = n * 2 ^ (k - 52) := by
  unfold roundBinary64
  dsimp only
  rw [binade_eq_of x k hk h1 h2, roundHalfEven_of_abs_lt _ n h3]

theorem roundHalfEven_tie_even (n : ℤ) (h : n % 2 = 0) :
    roundHalfEven ((n : ℚ) + 1 / 2) = n := by
  have hf : ⌊(n : ℚ) + 1 / 2⌋ = n := by
    rw [Int.floor_eq_iff]
    constructor <;> linarith
  unfold roundHalfEven
  dsimp only
  rw [hf, if_neg (by linarith), if_neg (by linarith), if_pos h]

/-- Evaluation of the rounding at a tie whose lower neighbour is even. -/
theorem roundBinary64_eval_tie (x : ℚ) (k n : ℤ) (hk : -1022 ≤ k) (h1 : 2 ^ k ≤ |x|)
    (h2 : |x| < 2 ^ (k + 1)) (h3 : x / 2 ^ (k - 52) = n + 1 / 2) (h4 : n % 2 = 0) :
    roundBinary64 x = n * 2 ^ (k - 52) := by
  unfold roundBinary64
  dsimp only
  rw [binade_eq_of x k hk h1 h2, h3, roundHalfEven_tie_even n h4]

/-- The literal `1.0E-6` denotes the double `4722366482869645 * 2 ^ (-72)`. -/
theorem roundBinary64_micro :
    roundBinary64 (1 / 1000000) = 4722366482869645 / 2 ^ 72 := by
  have h := roundBinary64_eval (1 / 1000000) (-20) 4722366482869645 (by norm_num)
    (by rw [abs_of_pos (by norm_num)]; norm_num)
    (by rw [abs_of_pos (by norm_num)]; norm_num)
    (by rw [abs_lt]; constructor <;> norm_num)
  rw [h]
  norm_num

/-! ## Properties of the rounding of a semantics -/

theorem round_mono (a : DoubleSemantics) {x y : ℚ} (h : x ≤ y) : a.round x ≤ a.round y := by
  cases a
  · exact h
  · exact roundBinary64_mono h
  · exact roundBinary64_mono h

theorem roundProduct_mono (a : DoubleSemantics) {x y : ℚ} (h : x ≤ y) :
    a.roundProduct x ≤ a.roundProduct y := by
  cases a
  · exact h
  · exact roundBinary64_mono h
  · exact h

theorem round_intCast (a : DoubleSemantics) (n : ℤ)
    (h : a = DoubleSemantics.exact ∨ |n| ≤ 2 ^ 53) : a.round (n : ℚ) = n := by
  cases a
  · rfl
  · rcases h with h | h
    · cases h
    · exact roundBinary64_intCast n h
  · rcases h with h | h
    · cases h
    · exact roundBinary64_intCast n h

theorem round_representable (a : DoubleSemantics) (m k : ℤ) (hm : |m| < 2 ^ 53)
    (hk : -1074 ≤ k) : a.round (m * 2 ^ k) = m * 2 ^ k := by
  cases a
  · rfl
  · exact roundBinary64_representable m k hm hk
  · exact roundBinary64_representable m k hm hk

theorem roundProduct_representable (a : DoubleSemantics) (m k : ℤ) (hm : |m| < 2 ^ 53)
    (hk : -1074 ≤ k) : a.roundProduct (m * 2 ^ k) = m * 2 ^ k := by
  cases a
  · rfl
  · exact roundBinary64_representable m k hm hk
  · rfl

theorem round_zero (a : DoubleSemantics) : a.round 0 = 0 := by
  have := round_intCast a 0 (Or.inr (by norm_num))
  simpa using this

theorem roundProduct_zero (a : DoubleSemantics) : a.roundProduct 0 = 0 := by
  cases a
  · rfl
  · exact roundBinary64_zero
  · rfl

theorem round_micro_pos (a : DoubleSemantics) : 0 < a.round (1 / 1000000) := by
  cases a
  · show (0 : ℚ) < 1 / 1000000
    norm_num
  · show 0 < roundBinary64 (1 / 1000000)
    rw [roundBinary64_micro]
    norm_num
  · show 0 < roundBinary64 (1 / 1000000)
    rw [roundBinary64_micro]
    norm_num

theorem round_micro_le (a : DoubleSemantics) : a.round (1 / 1000000) ≤ 1 / 1000000 := by
  cases a
  · exact le_refl _
  · show roundBinary64 (1 / 1000000) ≤ 1 / 1000000
    rw [roundBinary64_micro]
    norm_num
  · show roundBinary64 (1 / 1000000) ≤ 1 / 1000000
    rw [roundBinary64_micro]
    norm_num

theorem round_usec (a : DoubleSemantics) (u : ℤ) (h0 : 0 ≤ u) (h1 : u < 1000000) :
    a.round (u : ℚ) = u :=
  round_intCast a u (Or.inr (by rw [abs_of_nonneg h0]; omega))

/-! ## The two summands of `SDTAbsoluteTimeGetCurrent` -/

theorem SDTAbsoluteTimeGetCurrent_eq (a : DoubleSemantics) (g : GettimeofdayOutcome) :
    SDTAbsoluteTimeGetCurrent a g =
      a.round (secondsTerm a g.tv.tv_sec + microTerm a g.tv.tv_usec) := rfl

theorem microTerm_nonneg (a : DoubleSemantics) (u : ℤ) (h0 : 0 ≤ u) (h1 : u < 1000000) :
    0 ≤ microTerm a u := by
  unfold microTerm
  rw [round_usec a u h0 h1, ← roundProduct_zero a]
  apply roundProduct_mono
  have := round_micro_pos a
  have hu : (0 : ℚ) ≤ u := by exact_mod_cast h0
  positivity

theorem microTerm_le (a : DoubleSemantics) (u : ℤ) (h0 : 0 ≤ u) (h1 : u < 1000000) :
    microTerm a u ≤ 1 - 1 / 2 ^ 21 := by
  unfold microTerm
  rw [round_usec a u h0 h1]
  have hrep := roundProduct_representable a (2 ^ 21 - 1) (-21) (by norm_num) (by norm_num)
  have hval : (((2 ^ 21 - 1 : ℤ) : ℚ)) * 2 ^ (-21 : ℤ) = 1 - 1 / 2 ^ 21 := by norm_num
  rw [hval] at hrep
  rw [← hrep]
  apply roundProduct_mono
  have hK0 := round_micro_pos a
  have hK1 := round_micro_le a
  have hu0 : (0 : ℚ) ≤ u := by exact_mod_cast h0
  have hu1 : (u : ℚ) ≤ 999999 := by
    have : u ≤ 999999 := by omega
    exact_mod_cast this
  calc a.round (1 / 1000000) * (u : ℚ) ≤ 1 / 1000000 * 999999 :=
        mul_le_mul hK1 hu1 hu0 (by norm_num)
    _ ≤ 1 - 1 / 2 ^ 21 := by norm_num

theorem microTerm_mono (a : DoubleSemantics) (u v : ℤ) (h0 : 0 ≤ u) (h : u ≤ v)
    (h1 : v < 1000000) : microTerm a u ≤ microTerm a v := by
  unfold microTerm
  rw [round_usec a u h0 (by omega), round_usec a v (by omega) h1]
  apply roundProduct_mono
  have hK0 := round_micro_pos a
  have huv : (u : ℚ) ≤ v := by exact_mod_cast h
  exact mul_le_mul_of_nonneg_left huv hK0.le

theorem secondsTerm_mono (a : DoubleSemantics) {s t : ℤ} (h : s ≤ t) :
    secondsTerm a s ≤ secondsTerm a t := by
  unfold secondsTerm
  apply round_mono
  have : a.round (s : ℚ) ≤ a.round (t : ℚ) := round_mono a (by exact_mod_cast h)
  linarith

/-- The seconds summand is exact while `tv_sec` and `tv_sec - 978307200` are at
most `2 ^ 53` in magnitude. -/
theorem secondsTerm_eq (a : DoubleSemantics) (s : ℤ)
    (h : a = DoubleSemantics.exact ∨ (978307200 - 2 ^ 53 ≤ s ∧ s ≤ 2 ^ 53)) :
    secondsTerm a s = ((s - 978307200 : ℤ) : ℚ) := by
  unfold secondsTerm kCFAbsoluteTimeIntervalSince1970
  have h1 : a.round (s : ℚ) = s := by
    apply round_intCast
    rcases h with h | ⟨h, h2⟩
    · exact Or.inl h
    · right
      rw [abs_le]
      constructor <;> omega
  rw [h1]
  have h2 : (s : ℚ) - 978307200 = ((s - 978307200 : ℤ) : ℚ) := by push_cast; ring
  rw [h2]
  apply round_intCast
  rcases h with h | ⟨h, h2⟩
  · exact Or.inl h
  · right
    rw [abs_le]
    constructor <;> omega

/-! ## The returned value -/

theorem exact_value (g : GettimeofdayOutcome) :
    SDTAbsoluteTimeGetCurrent DoubleSemantics.exact g
      = (g.tv.tv_sec : ℚ) - 978307200 + (g.tv.tv_usec : ℚ) / 1000000 := by
  simp only [SDTAbsoluteTimeGetCurrent, DoubleSemantics.round, DoubleSemantics.roundProduct,
    kCFAbsoluteTimeIntervalSince1970]
  ring

theorem exact_value_micros (g : GettimeofdayOutcome) :
    SDTAbsoluteTimeGetCurrent DoubleSemantics.exact g
      = ((g.tv.micros : ℚ) - 978307200 * 1000000) / 1000000 := by
  rw [exact_value]
  unfold timeval.micros
  push_cast
  ring

/-- Bounds of the returned value while the seconds are exactly representable. -/
theorem value_bounds (a : DoubleSemantics) (g : GettimeofdayOutcome) (h : g.tv.normalised)
    (hr : a = DoubleSemantics.exact
      ∨ (978307200 - 2 ^ 53 ≤ g.tv.tv_sec ∧ g.tv.tv_sec < 2 ^ 53)) :
    ((g.tv.tv_sec - 978307200 : ℤ) : ℚ) ≤ SDTAbsoluteTimeGetCurrent a g
      ∧ SDTAbsoluteTimeGetCurrent a g ≤ ((g.tv.tv_sec - 978307200 + 1 : ℤ) : ℚ) := by
  obtain ⟨h0, h1⟩ := h
  have hrs : a = DoubleSemantics.exact
      ∨ (978307200 - 2 ^ 53 ≤ g.tv.tv_sec ∧ g.tv.tv_sec ≤ 2 ^ 53) := by
    rcases hr with h | ⟨h1, h2⟩
    · exact Or.inl h
    · exact Or.inr ⟨h1, by omega⟩
  have hlo : a.round (((g.tv.tv_sec - 978307200 : ℤ) : ℚ))
      = ((g.tv.tv_sec - 978307200 : ℤ) : ℚ) := by
    apply round_intCast
    rcases hr with h | ⟨h1, h2⟩
    · exact Or.inl h
    · right
      rw [abs_le]
      constructor <;> omega
  have hhi : a.round (((g.tv.tv_sec - 978307200 + 1 : ℤ) : ℚ))
      = ((g.tv.tv_sec - 978307200 + 1 : ℤ) : ℚ) := by
    apply round_intCast
    rcases hr with h | ⟨h1, h2⟩
    · exact Or.inl h
    · right
      rw [abs_le]
      constructor <;> omega
  have hm0 := microTerm_nonneg a g.tv.tv_usec h0 h1
  have hm1 := microTerm_le a g.tv.tv_usec h0 h1
  have hpow : (0 : ℚ) < 1 / 2 ^ 21 := by positivity
  rw [SDTAbsoluteTimeGetCurrent_eq, secondsTerm_eq a g.tv.tv_sec hrs]
  constructor
  · calc ((g.tv.tv_sec - 978307200 : ℤ) : ℚ)
        = a.round (((g.tv.tv_sec - 978307200 : ℤ) : ℚ)) := hlo.symm
      _ ≤ _ := round_mono a (by linarith)
  · calc a.round (((g.tv.tv_sec - 978307200 : ℤ) : ℚ) + microTerm a g.tv.tv_usec)
        ≤ a.round (((g.tv.tv_sec - 978307200 + 1 : ℤ) : ℚ)) :=
          round_mono a (by push_cast; linarith)
      _ = _ := hhi

/-- Monotonicity of the returned value in the reading, in exact arithmetic for
all readings and in binary64 arithmetic while the seconds are exactly
representable. -/
theorem monotone_core (a : DoubleSemantics) (x y : timeval)
    (hx : x.normalised) (hy : y.normalised) (hle : x.le y)
    (hr : a = DoubleSemantics.exact ∨ (978307200 - 2 ^ 53 ≤ x.tv_sec ∧ y.tv_sec ≤ 2 ^ 53))
    (sx sy : ℤ) :
    SDTAbsoluteTimeGetCurrent a ⟨sx, x⟩ ≤ SDTAbsoluteTimeGetCurrent a ⟨sy, y⟩ := by
  rw [SDTAbsoluteTimeGetCurrent_eq, SDTAbsoluteTimeGetCurrent_eq]
  obtain ⟨hx0, hx1⟩ := hx
  obtain ⟨hy0, hy1⟩ := hy
  show a.round (secondsTerm a x.tv_sec + microTerm a x.tv_usec)
    ≤ a.round (secondsTerm a y.tv_sec + microTerm a y.tv_usec)
  rcases hle with hlt | ⟨heq, hu⟩
  · have hrx : a = DoubleSemantics.exact ∨ (978307200 - 2 ^ 53 ≤ x.tv_sec ∧ x.tv_sec ≤ 2 ^ 53) := by
      rcases hr with h | ⟨h1, h2⟩
      · exact Or.inl h
      · exact Or.inr ⟨h1, by omega⟩
    have hry : a = DoubleSemantics.exact ∨ (978307200 - 2 ^ 53 ≤ y.tv_sec ∧ y.tv_sec ≤ 2 ^ 53) := by
      rcases hr with h | ⟨h1, h2⟩
      · exact Or.inl h
      · exact Or.inr ⟨by omega, h2⟩
    have hmid : a.round (((x.tv_sec - 978307200 + 1 : ℤ) : ℚ)) = ((x.tv_sec - 978307200 + 1 : ℤ) : ℚ) := by
      apply round_intCast
      rcases hr with h | ⟨h1, h2⟩
      · exact Or.inl h
      · right
        rw [abs_le]
        constructor <;> omega
    have hyr : a.round (((y.tv_sec - 978307200 : ℤ) : ℚ)) = ((y.tv_sec - 978307200 : ℤ) : ℚ) := by
      apply round_intCast
      rcases hr with h | ⟨h1, h2⟩
      · exact Or.inl h
      · right
        rw [abs_le]
        constructor <;> omega
    rw [secondsTerm_eq a x.tv_sec hrx, secondsTerm_eq a y.tv_sec hry]
    have hm1 := microTerm_le a x.tv_usec hx0 hx1
    have hm2 := microTerm_nonneg a y.tv_usec hy0 hy1
    have hpow : (0 : ℚ) < 1 / 2 ^ 21 := by positivity
    calc a.round (((x.tv_sec - 978307200 : ℤ) : ℚ) + microTerm a x.tv_usec)
        ≤ a.round (((x.tv_sec - 978307200 + 1 : ℤ) : ℚ)) :=
          round_mono a (by push_cast; linarith)
      _ = ((x.tv_sec - 978307200 + 1 : ℤ) : ℚ) := hmid
      _ ≤ ((y.tv_sec - 978307200 : ℤ) : ℚ) := by
          have : x.tv_sec - 978307200 + 1 ≤ y.tv_sec - 978307200 := by omega
          exact_mod_cast this
      _ = a.round (((y.tv_sec - 978307200 : ℤ) : ℚ)) := hyr.symm
      _ ≤ a.round (((y.tv_sec - 978307200 : ℤ) : ℚ) + microTerm a y.tv_usec) :=
          round_mono a (by linarith)
  · rw [heq]
    apply round_mono
    have := microTerm_mono a x.tv_usec y.tv_usec hx0 hu hy1
    linarith

/-! ## Values in binary64 arithmetic -/

theorem round_eq_roundBinary64 (a : DoubleSemantics) (ha : a ≠ DoubleSemantics.exact)
    (x : ℚ) : a.round x = roundBinary64 x := by
  cases a
  · exact absurd rfl ha
  · rfl
  · rfl

theorem microTerm_zero (a : DoubleSemantics) : microTerm a 0 = 0 := by
  unfold microTerm
  rw [Int.cast_zero, round_zero, mul_zero, roundProduct_zero]

/-- With or without contraction, `1.0E-6 * 1.0` is the double of the literal
`1.0E-6`, `4722366482869645 * 2 ^ (-72)`. -/
theorem microTerm_one (a : DoubleSemantics) (ha : a ≠ DoubleSemantics.exact) :
    microTerm a 1 = 4722366482869645 / 2 ^ 72 := by
  have hK : a.round (1 / 1000000) = 4722366482869645 / 2 ^ 72 := by
    rw [round_eq_roundBinary64 a ha, roundBinary64_micro]
  unfold microTerm
  rw [round_usec a 1 (by norm_num) (by norm_num), hK, Int.cast_one, mul_one]
  have h := roundProduct_representable a 4722366482869645 (-72) (by norm_num) (by norm_num)
  norm_num at h ⊢
  exact h

/-- The product `1.0E-6 * 999999.0` is at least `7 / 8` in every arithmetic. -/
theorem microTerm_999999_ge (a : DoubleSemantics) : 7 / 8 ≤ microTerm a 999999 := by
  have hK : (4722366482869645 : ℚ) / 2 ^ 72 ≤ a.round (1 / 1000000) := by
    cases a
    · show (4722366482869645 : ℚ) / 2 ^ 72 ≤ 1 / 1000000
      norm_num
    · show (4722366482869645 : ℚ) / 2 ^ 72 ≤ roundBinary64 (1 / 1000000)
      rw [roundBinary64_micro]
    · show (4722366482869645 : ℚ) / 2 ^ 72 ≤ roundBinary64 (1 / 1000000)
      rw [roundBinary64_micro]
  have hrep := roundProduct_representable a 7 (-3) (by norm_num) (by norm_num)
  have hval : (((7 : ℤ) : ℚ)) * 2 ^ (-3 : ℤ) = 7 / 8 := by norm_num
  rw [hval] at hrep
  unfold microTerm
  rw [round_usec a 999999 (by norm_num) (by norm_num), ← hrep]
  apply roundProduct_mono
  calc (7 : ℚ) / 8 ≤ 4722366482869645 / 2 ^ 72 * ((999999 : ℤ) : ℚ) := by norm_num
    _ ≤ a.round (1 / 1000000) * ((999999 : ℤ) : ℚ) :=
        mul_le_mul_of_nonneg_right hK (by norm_num)

/-- In binary64 arithmetic, with or without contraction, the reading
`(1700000000, 1)` gives `721692800 + 8 * 2 ^ (-23)`. -/
theorem binary64_value_one_microsecond (a : DoubleSemantics)
    (ha : a ≠ DoubleSemantics.exact) :
    SDTAbsoluteTimeGetCurrent a (reading 1700000000 1) = 756749749452801 / 1048576 := by
  rw [SDTAbsoluteTimeGetCurrent_eq, round_eq_roundBinary64 a ha]
  show roundBinary64 (secondsTerm a 1700000000 + microTerm a 1) = _
  have hs : secondsTerm a 1700000000 = 721692800 := by
    rw [secondsTerm_eq _ _ (Or.inr ⟨by norm_num, by norm_num⟩)]
    norm_num
  rw [hs, microTerm_one a ha]
  have h := roundBinary64_eval (721692800 + 4722366482869645 / 2 ^ 72) 29
    6053997995622408 (by norm_num)
    (by rw [abs_of_pos (by norm_num)]; norm_num)
    (by rw [abs_of_pos (by norm_num)]; norm_num)
    (by rw [abs_lt]; constructor <;> norm_num)
  rw [h]
  norm_num

/-- In binary64 arithmetic, with or without contraction, the reading
`(2 ^ 52, 999999)` gives `2 ^ 52 - 978307200 + 1`: doubles of that size are half
a unit apart and the sum is rounded up. -/
theorem binary64_value_at_two_pow_52 (a : DoubleSemantics)
    (ha : a ≠ DoubleSemantics.exact) :
    SDTAbsoluteTimeGetCurrent a (reading 4503599627370496 999999) = 4503598649063297 := by
  rw [SDTAbsoluteTimeGetCurrent_eq, round_eq_roundBinary64 a ha]
  show roundBinary64 (secondsTerm a 4503599627370496 + microTerm a 999999) = _
  have hs : secondsTerm a 4503599627370496 = 4503598649063296 := by
    rw [secondsTerm_eq _ _ (Or.inr ⟨by norm_num, by norm_num⟩)]
    norm_num
  have hm0 := microTerm_999999_ge a
  have hm1 := microTerm_le a 999999 (by norm_num) (by norm_num)
  have hpow : (0 : ℚ) < 1 / 2 ^ 21 := by positivity
  rw [hs]
  have hpos : (0 : ℚ) < 4503598649063296 + microTerm a 999999 := by linarith
  have h := roundBinary64_eval (4503598649063296 + microTerm a 999999) 51
    9007197298126594 (by norm_num)
    (by rw [abs_of_pos hpos]; norm_num; linarith)
    (by rw [abs_of_pos hpos]; norm_num; linarith)
    (by
      have h2 : ((2 : ℚ) ^ ((51 : ℤ) - 52)) = 1 / 2 := by norm_num
      rw [h2, abs_lt]
      constructor
      · push_cast
        linarith
      · push_cast
        linarith)
  rw [h]
  norm_num

/-- In binary64 arithmetic, with or without contraction, the reading
`(2 ^ 53, 999999)` gives `2 ^ 53 - 978307200 + 1`: doubles of that size are one
unit apart and the sum is rounded up to the next integer. -/
theorem binary64_value_at_two_pow_53 (a : DoubleSemantics)
    (ha : a ≠ DoubleSemantics.exact) :
    SDTAbsoluteTimeGetCurrent a (reading 9007199254740992 999999) = 9007198276433793 := by
  rw [SDTAbsoluteTimeGetCurrent_eq, round_eq_roundBinary64 a ha]
  show roundBinary64 (secondsTerm a 9007199254740992 + microTerm a 999999) = _
  have hs : secondsTerm a 9007199254740992 = 9007198276433792 := by
    rw [secondsTerm_eq _ _ (Or.inr ⟨by norm_num, by norm_num⟩)]
    norm_num
  have hm0 := microTerm_999999_ge a
  have hm1 := microTerm_le a 999999 (by norm_num) (by norm_num)
  have hpow : (0 : ℚ) < 1 / 2 ^ 21 := by positivity
  rw [hs]
  have hpos : (0 : ℚ) < 9007198276433792 + microTerm a 999999 := by linarith
  have h := roundBinary64_eval (9007198276433792 + microTerm a 999999) 52
    9007198276433793 (by norm_num)
    (by rw [abs_of_pos hpos]; norm_num; linarith)
    (by rw [abs_of_pos hpos]; norm_num; linarith)
    (by
      have h2 : ((2 : ℚ) ^ ((52 : ℤ) - 52)) = 1 := by norm_num
      rw [h2, abs_lt]
      constructor
      · push_cast
        linarith
      · push_cast
        linarith)
  rw [h]
  norm_num

/-- In binary64 arithmetic, with or without contraction, the reading
`(2 ^ 53 + 1, 0)` gives `2 ^ 53 - 978307200`: the conversion of `2 ^ 53 + 1` to
a double is a tie and gives `2 ^ 53`. -/
theorem binary64_value_after_two_pow_53 (a : DoubleSemantics)
    (ha : a ≠ DoubleSemantics.exact) :
    SDTAbsoluteTimeGetCurrent a (reading 9007199254740993 0) = 9007198276433792 := by
  rw [SDTAbsoluteTimeGetCurrent_eq, round_eq_roundBinary64 a ha]
  show roundBinary64 (secondsTerm a 9007199254740993 + microTerm a 0) = _
  have hc : roundBinary64 (((9007199254740993 : ℤ) : ℚ)) = 9007199254740992 := by
    have h := roundBinary64_eval_tie (((9007199254740993 : ℤ) : ℚ)) 53 4503599627370496
      (by norm_num)
      (by rw [abs_of_pos (by norm_num)]; norm_num)
      (by rw [abs_of_pos (by norm_num)]; norm_num)
      (by norm_num) (by norm_num)
    rw [h]
    norm_num
  have hs : secondsTerm a 9007199254740993 = 9007198276433792 := by
    unfold secondsTerm kCFAbsoluteTimeIntervalSince1970
    rw [round_eq_roundBinary64 a ha, round_eq_roundBinary64 a ha, hc]
    have h := roundBinary64_intCast 9007198276433792 (by norm_num)
    norm_num at h ⊢
    exact h
  rw [hs, microTerm_zero, add_zero]
  have h := roundBinary64_intCast 9007198276433792 (by norm_num)
  norm_num at h ⊢
  exact h

/-! ## Rounding errors -/

theorem abs_roundHalfEven_sub_le (q : ℚ) : |(roundHalfEven q : ℚ) - q| ≤ 1 / 2 := by
  have h1 := Int.floor_le q
  have h2 := Int.lt_floor_add_one q
  unfold roundHalfEven
  dsimp only
  rw [abs_le]
  split_ifs <;> push_cast <;> constructor <;> linarith

/-- The rounding error is at most half a unit in the last place. -/
theorem abs_roundBinary64_sub_le (x : ℚ) :
    |roundBinary64 x - x| ≤ 2 ^ (binade x - 53) := by
  have h2 : (0 : ℚ) < 2 ^ (binade x - 52) := by positivity
  have hx : x = x / 2 ^ (binade x - 52) * 2 ^ (binade x - 52) := by
    rw [div_mul_cancel₀ _ h2.ne']
  have hsplit : (2 : ℚ) ^ (binade x - 53) = 1 / 2 * 2 ^ (binade x - 52) := by
    have : binade x - 52 = (binade x - 53) + 1 := by ring
    rw [this, zpow_add_one₀ (by norm_num)]
    ring
  have he := abs_roundHalfEven_sub_le (x / 2 ^ (binade x - 52))
  unfold roundBinary64
  dsimp only
  rw [hsplit]
  calc |(roundHalfEven (x / 2 ^ (binade x - 52)) : ℚ) * 2 ^ (binade x - 52) - x|
      = |((roundHalfEven (x / 2 ^ (binade x - 52)) : ℚ) - x / 2 ^ (binade x - 52))
          * 2 ^ (binade x - 52)| := by
        congr 1
        rw [sub_mul, div_mul_cancel₀ _ h2.ne']
    _ = |(roundHalfEven (x / 2 ^ (binade x - 52)) : ℚ) - x / 2 ^ (binade x - 52)|
          * 2 ^ (binade x - 52) := by
        rw [abs_mul, abs_of_pos h2]
    _ ≤ 1 / 2 * 2 ^ (binade x - 52) := mul_le_mul_of_nonneg_right he h2.le

/-- Rounding error of a number below `2 ^ (k + 1)` in magnitude. -/
theorem roundBinary64_error_le (x : ℚ) (k : ℤ) (hk : -1022 ≤ k) (h : |x| < 2 ^ (k + 1)) :
    |roundBinary64 x - x| ≤ 2 ^ (k - 53) := by
  rcases eq_or_ne x 0 with rfl | hx
  · rw [roundBinary64_zero, sub_zero, abs_zero]
    positivity
  · have hpos : 0 < |x| := abs_pos.mpr hx
    have hlog : Int.log 2 |x| < k + 1 := by
      rw [← Int.lt_zpow_iff_log_lt (by norm_num) hpos]
      simpa using h
    have hb : binade x ≤ k := by
      unfold binade
      omega
    calc |roundBinary64 x - x| ≤ 2 ^ (binade x - 53) := abs_roundBinary64_sub_le x
      _ ≤ 2 ^ (k - 53) := zpow_le_zpow_right₀ (by norm_num) (by omega)

/-- Relative rounding error of zero and of normal numbers. -/
theorem roundBinary64_error_le_rel (x : ℚ) (h : x = 0 ∨ 2 ^ (-1022 : ℤ) ≤ |x|) :
    |roundBinary64 x - x| ≤ |x| / 2 ^ 53 := by
  rcases h with rfl | h
  · rw [roundBinary64_zero, sub_zero, abs_zero, zero_div]
  · have hpos : 0 < |x| := lt_of_lt_of_le (by positivity) h
    have hlog : -1022 ≤ Int.log 2 |x| := by
      rw [← Int.zpow_le_iff_le_log (by norm_num) hpos]
      simpa using h
    have hb : binade x = Int.log 2 |x| := by
      unfold binade
      omega
    have hle := Int.zpow_log_le_self (R := ℚ) (b := 2) (by norm_num) hpos
    rw [Nat.cast_ofNat, ← hb] at hle
    have hsplit : (2 : ℚ) ^ (binade x - 53) = 2 ^ binade x / 2 ^ 53 := by
      rw [zpow_sub₀ (by norm_num)]
      norm_num
    calc |roundBinary64 x - x| ≤ 2 ^ (binade x - 53) := abs_roundBinary64_sub_le x
      _ = 2 ^ binade x / 2 ^ 53 := hsplit
      _ ≤ |x| / 2 ^ 53 := div_le_div_of_nonneg_right hle (by positivity)

theorem round_micro_value (a : DoubleSemantics) (ha : a ≠ DoubleSemantics.exact) :
    a.round (1 / 1000000) = 4722366482869645 / 2 ^ 72 := by
  cases a
  · exact absurd rfl ha
  · exact roundBinary64_micro
  · exact roundBinary64_micro

/-- The microseconds summand is within `2 ^ (-53)` of `tv_usec / 1000000`. -/
theorem microTerm_error (a : DoubleSemantics) (u : ℤ) (h0 : 0 ≤ u) (h1 : u < 1000000) :
    |microTerm a u - (u : ℚ) / 1000000| ≤ 1 / 2 ^ 53 := by
  have hu0 : (0 : ℚ) ≤ u := by exact_mod_cast h0
  have hu1 : (u : ℚ) ≤ 999999 := by
    have : u ≤ 999999 := by omega
    exact_mod_cast this
  unfold microTerm
  rw [round_usec a u h0 h1]
  have hprod : ∀ b : DoubleSemantics, b ≠ DoubleSemantics.exact →
      |b.round (1 / 1000000) * (u : ℚ) - (u : ℚ) / 1000000| ≤ 1 / 2 ^ 54
        ∧ 0 ≤ b.round (1 / 1000000) * (u : ℚ) ∧ b.round (1 / 1000000) * (u : ℚ) < 1 := by
    intro b hb
    rw [round_micro_value b hb]
    refine ⟨?_, by positivity, ?_⟩
    · rw [abs_le]
      constructor
      · have : (4722366482869645 : ℚ) / 2 ^ 72 * u - u / 1000000
            = -(u * (213696 / (1000000 * 2 ^ 72))) := by
          norm_num
          ring
        rw [this]
        have : (u : ℚ) * (213696 / (1000000 * 2 ^ 72)) ≤ 999999 * (213696 / (1000000 * 2 ^ 72)) :=
          mul_le_mul_of_nonneg_right hu1 (by positivity)
        have h3 : (999999 : ℚ) * (213696 / (1000000 * 2 ^ 72)) ≤ 1 / 2 ^ 54 := by norm_num
        linarith
      · have : (4722366482869645 : ℚ) / 2 ^ 72 * u - u / 1000000
            = -(u * (213696 / (1000000 * 2 ^ 72))) := by
          norm_num
          ring
        rw [this]
        have : (0 : ℚ) ≤ (u : ℚ) * (213696 / (1000000 * 2 ^ 72)) := by positivity
        have h3 : (0 : ℚ) ≤ 1 / 2 ^ 54 := by positivity
        linarith
    · calc (4722366482869645 : ℚ) / 2 ^ 72 * u ≤ 4722366482869645 / 2 ^ 72 * 999999 :=
          mul_le_mul_of_nonneg_left hu1 (by positivity)
        _ < 1 := by norm_num
  cases a
  · show |(1 : ℚ) / 1000000 * u - u / 1000000| ≤ 1 / 2 ^ 53
    have : (1 : ℚ) / 1000000 * u - u / 1000000 = 0 := by ring
    rw [this, abs_zero]
    positivity
  · obtain ⟨he, hp0, hp1⟩ := hprod DoubleSemantics.binary64 (by decide)
    show |roundBinary64 (DoubleSemantics.binary64.round (1 / 1000000) * (u : ℚ))
      - (u : ℚ) / 1000000| ≤ 1 / 2 ^ 53
    have hr := roundBinary64_error_le
      (DoubleSemantics.binary64.round (1 / 1000000) * (u : ℚ)) (-1) (by norm_num)
      (by rw [abs_of_nonneg hp0]; simpa using hp1)
    have h54 : (2 : ℚ) ^ ((-1 : ℤ) - 53) = 1 / 2 ^ 54 := by norm_num
    rw [h54] at hr
    have htri := abs_sub_le
      (roundBinary64 (DoubleSemantics.binary64.round (1 / 1000000) * (u : ℚ)))
      (DoubleSemantics.binary64.round (1 / 1000000) * (u : ℚ)) ((u : ℚ) / 1000000)
    have h53 : (1 : ℚ) / 2 ^ 54 + 1 / 2 ^ 54 = 1 / 2 ^ 53 := by norm_num
    linarith
  · obtain ⟨he, hp0, hp1⟩ := hprod DoubleSemantics.binary64Contracted (by decide)
    show |DoubleSemantics.binary64Contracted.round (1 / 1000000) * (u : ℚ)
      - (u : ℚ) / 1000000| ≤ 1 / 2 ^ 53
    have h53 : (1 : ℚ) / 2 ^ 54 ≤ 1 / 2 ^ 53 := by norm_num
    linarith

/-- The returned value is within `(|tv_sec - 978307200| + 2) / 2 ^ 53` of
`tv_sec - 978307200 + tv_usec / 1000000` while the seconds are exactly
representable. -/
theorem value_error (a : DoubleSemantics) (g : GettimeofdayOutcome)
    (hr : a = DoubleSemantics.exact
      ∨ (g.tv.normalised ∧ 978307200 - 2 ^ 53 ≤ g.tv.tv_sec ∧ g.tv.tv_sec ≤ 2 ^ 53)) :
    |SDTAbsoluteTimeGetCurrent a g
        - ((g.tv.tv_sec : ℚ) - 978307200 + (g.tv.tv_usec : ℚ) / 1000000)|
      ≤ (|(g.tv.tv_sec : ℚ) - 978307200| + 2) / 2 ^ 53 := by
  have hbound : (0 : ℚ) ≤ (|(g.tv.tv_sec : ℚ) - 978307200| + 2) / 2 ^ 53 := by positivity
  rcases eq_or_ne a DoubleSemantics.exact with rfl | ha
  · rw [exact_value, sub_self, abs_zero]
    exact hbound
  · have hrange : g.tv.normalised ∧ 978307200 - 2 ^ 53 ≤ g.tv.tv_sec ∧ g.tv.tv_sec ≤ 2 ^ 53 := by
      rcases hr with h | h
      · exact absurd h ha
      · exact h
    obtain ⟨⟨h0, h1⟩, hlo, hhi⟩ := hrange
    have hm0 := microTerm_nonneg a g.tv.tv_usec h0 h1
    have hm1 := microTerm_le a g.tv.tv_usec h0 h1
    have hme := microTerm_error a g.tv.tv_usec h0 h1
    have hpow : (0 : ℚ) < 1 / 2 ^ 21 := by positivity
    rw [SDTAbsoluteTimeGetCurrent_eq, round_eq_roundBinary64 a ha,
      secondsTerm_eq a g.tv.tv_sec (Or.inr ⟨hlo, hhi⟩)]
    push_cast
    set A : ℚ := (g.tv.tv_sec : ℚ) - 978307200 with hA
    set M : ℚ := microTerm a g.tv.tv_usec with hM
    have hnormal : A + M = 0 ∨ 2 ^ (-1022 : ℤ) ≤ |A + M| := by
      have hsmall : (2 : ℚ) ^ (-1022 : ℤ) ≤ 1 / 2 ^ 21 := by
        rw [one_div, ← zpow_natCast, ← zpow_neg]
        exact zpow_le_zpow_right₀ (by norm_num) (by norm_num)
      rcases lt_trichotomy (g.tv.tv_sec) 978307200 with hlt | heq | hgt
      · right
        have : A ≤ -1 := by
          have : g.tv.tv_sec ≤ 978307200 - 1 := by omega
          have hq : (g.tv.tv_sec : ℚ) ≤ 978307200 - 1 := by exact_mod_cast this
          rw [hA]
          linarith
        refine le_trans hsmall ?_
        rw [abs_of_neg (by linarith)]
        linarith
      · have hA0 : A = 0 := by
          rw [hA, heq]
          norm_num
        rcases eq_or_lt_of_le h0 with hu | hu
        · left
          rw [hA0, hM, ← hu, microTerm_zero]
          norm_num
        · right
          have hge : 1 / 2 ^ 21 ≤ M := by
            have hme' := abs_le.mp hme
            have hu1 : (1 : ℚ) ≤ g.tv.tv_usec := by
              have : 1 ≤ g.tv.tv_usec := by omega
              exact_mod_cast this
            have : (1 : ℚ) / 1000000 ≤ (g.tv.tv_usec : ℚ) / 1000000 :=
              div_le_div_of_nonneg_right hu1 (by norm_num)
            have h53 : (1 : ℚ) / 2 ^ 21 + 1 / 2 ^ 53 ≤ 1 / 1000000 := by norm_num
            linarith [hme'.1]
          refine le_trans hsmall ?_
          rw [hA0, zero_add, abs_of_nonneg hm0]
          exact hge
      · right
        have : 1 ≤ A := by
          have : 978307200 + 1 ≤ g.tv.tv_sec := by omega
          have hq : (978307200 : ℚ) + 1 ≤ g.tv.tv_sec := by exact_mod_cast this
          rw [hA]
          linarith
        refine le_trans hsmall ?_
        rw [abs_of_pos (by linarith)]
        have : (1 : ℚ) / 2 ^ 21 ≤ 1 := by norm_num
        linarith
    have hrel := roundBinary64_error_le_rel (A + M) hnormal
    have habs : |A + M| ≤ |A| + 1 := by
      calc |A + M| ≤ |A| + |M| := abs_add A M
        _ ≤ |A| + 1 := by
          rw [abs_of_nonneg hm0]
          linarith
    have htri := abs_sub_le (roundBinary64 (A + M)) (A + M)
      (A + (g.tv.tv_usec : ℚ) / 1000000)
    have hdiff : A + M - (A + (g.tv.tv_usec : ℚ) / 1000000)
        = M - (g.tv.tv_usec : ℚ) / 1000000 := by ring
    rw [hdiff] at htri
    have hdiv : |A + M| / 2 ^ 53 ≤ (|A| + 1) / 2 ^ 53 :=
      div_le_div_of_nonneg_right habs (by positivity)
    have hsum : (|A| + 1) / 2 ^ 53 + 1 / 2 ^ 53 = (|A| + 2) / 2 ^ 53 := by ring
    linarith

/-- The returned value is within `2 ^ (-21) + 2 ^ (-53)` of
`tv_sec - 978307200 + tv_usec / 1000000` while `|tv_sec - 978307200| < 2 ^ 33`. -/
theorem value_error_near (a : DoubleSemantics) (g : GettimeofdayOutcome)
    (hr : a = DoubleSemantics.exact
      ∨ (g.tv.normalised ∧ 978307200 - 2 ^ 33 < g.tv.tv_sec
        ∧ g.tv.tv_sec < 978307200 + 2 ^ 33)) :
    |SDTAbsoluteTimeGetCurrent a g
        - ((g.tv.tv_sec : ℚ) - 978307200 + (g.tv.tv_usec : ℚ) / 1000000)|
      ≤ 1 / 2 ^ 21 + 1 / 2 ^ 53 := by
  rcases eq_or_ne a DoubleSemantics.exact with rfl | ha
  · rw [exact_value, sub_self, abs_zero]
    positivity
  · have hrange : g.tv.normalised ∧ 978307200 - 2 ^ 33 < g.tv.tv_sec
        ∧ g.tv.tv_sec < 978307200 + 2 ^ 33 := by
      rcases hr with h | h
      · exact absurd h ha
      · exact h
    obtain ⟨⟨h0, h1⟩, hlo, hhi⟩ := hrange
    have hm0 := microTerm_nonneg a g.tv.tv_usec h0 h1
    have hm1 := microTerm_le a g.tv.tv_usec h0 h1
    have hme := microTerm_error a g.tv.tv_usec h0 h1
    have hpow : (0 : ℚ) < 1 / 2 ^ 21 := by positivity
    rw [SDTAbsoluteTimeGetCurrent_eq, round_eq_roundBinary64 a ha,
      secondsTerm_eq a g.tv.tv_sec (Or.inr ⟨by omega, by omega⟩)]
    push_cast
    set A : ℚ := (g.tv.tv_sec : ℚ) - 978307200 with hA
    set M : ℚ := microTerm a g.tv.tv_usec with hM
    have hA1 : -(2 ^ 33 : ℚ) + 1 ≤ A := by
      have : 978307200 - 2 ^ 33 + 1 ≤ g.tv.tv_sec := by omega
      have hq : ((978307200 - 2 ^ 33 + 1 : ℤ) : ℚ) ≤ g.tv.tv_sec := by exact_mod_cast this
      push_cast at hq
      rw [hA]
      linarith
    have hA2 : A ≤ 2 ^ 33 - 1 := by
      have : g.tv.tv_sec ≤ 978307200 + 2 ^ 33 - 1 := by omega
      have hq : (g.tv.tv_sec : ℚ) ≤ ((978307200 + 2 ^ 33 - 1 : ℤ) : ℚ) := by exact_mod_cast this
      push_cast at hq
      rw [hA]
      linarith
    have hlt : |A + M| < 2 ^ ((32 : ℤ) + 1) := by
      have h33 : (2 : ℚ) ^ ((32 : ℤ) + 1) = 2 ^ 33 := by norm_num
      rw [h33, abs_lt]
      constructor <;> linarith
    have herr := roundBinary64_error_le (A + M) 32 (by norm_num) hlt
    have h21 : (2 : ℚ) ^ ((32 : ℤ) - 53) = 1 / 2 ^ 21 := by norm_num
    rw [h21] at herr
    have htri := abs_sub_le (roundBinary64 (A + M)) (A + M)
      (A + (g.tv.tv_usec : ℚ) / 1000000)
    have hdiff : A + M - (A + (g.tv.tv_usec : ℚ) / 1000000)
        = M - (g.tv.tv_usec : ℚ) / 1000000 := by ring
    rw [hdiff] at htri
    linarith

/-- Strict monotonicity of the returned value while `|tv_sec - 978307200| < 2 ^ 33`:
the spacing of the doubles is then below one microsecond. -/
theorem strict_mono_near (a : DoubleSemantics) (g1 g2 : GettimeofdayOutcome)
    (h1 : g1.tv.normalised) (h2 : g2.tv.normalised)
    (hr : a = DoubleSemantics.exact
      ∨ ((978307200 - 2 ^ 33 < g1.tv.tv_sec ∧ g1.tv.tv_sec < 978307200 + 2 ^ 33)
        ∧ (978307200 - 2 ^ 33 < g2.tv.tv_sec ∧ g2.tv.tv_sec < 978307200 + 2 ^ 33)))
    (hlt : g1.tv.lt g2.tv) :
    SDTAbsoluteTimeGetCurrent a g1 < SDTAbsoluteTimeGetCurrent a g2 := by
  have e1 := value_error_near a g1 (by
    rcases hr with h | ⟨h, _⟩
    · exact Or.inl h
    · exact Or.inr ⟨h1, h⟩)
  have e2 := value_error_near a g2 (by
    rcases hr with h | ⟨_, h⟩
    · exact Or.inl h
    · exact Or.inr ⟨h2, h⟩)
  have hz : g1.tv.micros + 1 ≤ g2.tv.micros := by
    obtain ⟨h10, h11⟩ := h1
    obtain ⟨h20, h21⟩ := h2
    unfold timeval.micros
    rcases hlt with h | ⟨h, h3⟩
    · omega
    · omega
  have hq : (g1.tv.micros : ℚ) + 1 ≤ g2.tv.micros := by exact_mod_cast hz
  unfold timeval.micros at hq
  push_cast at hq
  have b1 := abs_le.mp e1
  have b2 := abs_le.mp e2
  have hgap : (2 : ℚ) * (1 / 2 ^ 21 + 1 / 2 ^ 53) < 1 / 1000000 := by norm_num
  have hv : ((g1.tv.tv_sec : ℚ) - 978307200 + (g1.tv.tv_usec : ℚ) / 1000000) + 1 / 1000000
      ≤ (g2.tv.tv_sec : ℚ) - 978307200 + (g2.tv.tv_usec : ℚ) / 1000000 := by
    have : ((g1.tv.tv_sec : ℚ) * 1000000 + g1.tv.tv_usec + 1) / 1000000
        ≤ ((g2.tv.tv_sec : ℚ) * 1000000 + g2.tv.tv_usec) / 1000000 :=
      div_le_div_of_nonneg_right hq (by norm_num)
    have e3 : ((g1.tv.tv_sec : ℚ) * 1000000 + g1.tv.tv_usec + 1) / 1000000
        = (g1.tv.tv_sec : ℚ) + (g1.tv.tv_usec : ℚ) / 1000000 + 1 / 1000000 := by ring
    have e4 : ((g2.tv.tv_sec : ℚ) * 1000000 + g2.tv.tv_usec) / 1000000
        = (g2.tv.tv_sec : ℚ) + (g2.tv.tv_usec : ℚ) / 1000000 := by ring
    rw [e3, e4] at this
    linarith
  linarith [b1.1, b1.2, b2.1, b2.2]

/-- With or without contraction, a failed or successful call that leaves
`(978307200, 1)` in the buffer gives the double of the literal `1.0E-6`. -/
theorem binary64_value_reference_plus_one (a : DoubleSemantics)
    (ha : a ≠ DoubleSemantics.exact) (status : ℤ) :
    SDTAbsoluteTimeGetCurrent a ⟨status, ⟨978307200, 1⟩⟩ = 4722366482869645 / 2 ^ 72 := by
  rw [SDTAbsoluteTimeGetCurrent_eq, round_eq_roundBinary64 a ha]
  show roundBinary64 (secondsTerm a 978307200 + microTerm a 1) = _
  have hs : secondsTerm a 978307200 = 0 := by
    rw [secondsTerm_eq _ _ (Or.inr ⟨by norm_num, by norm_num⟩)]
    norm_num
  rw [hs, microTerm_one a ha, zero_add]
  have h := roundBinary64_representable 4722366482869645 (-72) (by norm_num) (by norm_num)
  norm_num at h ⊢
  exact h

/-- With or without contraction, at `tv_sec = 978307200 + 2 ^ 33` the doubles are
`2 ^ (-19)` apart, more than a microsecond, and `tv_usec = 1` and `tv_usec = 2`
both give `2 ^ 33 + 2 ^ (-19)`. -/
theorem binary64_value_collision (a : DoubleSemantics) (ha : a ≠ DoubleSemantics.exact)
    (u : ℤ) (hu : u = 1 ∨ u = 2) :
    SDTAbsoluteTimeGetCurrent a (reading 9568241792 u) = 4503599627370497 / 524288 := by
  have h0 : 0 ≤ u := by omega
  have h1 : u < 1000000 := by omega
  have hme := abs_le.mp (microTerm_error a u h0 h1)
  have hulo : (1 : ℚ) ≤ u := by
    have : 1 ≤ u := by omega
    exact_mod_cast this
  have huhi : (u : ℚ) ≤ 2 := by
    have : u ≤ 2 := by omega
    exact_mod_cast this
  rw [SDTAbsoluteTimeGetCurrent_eq, round_eq_roundBinary64 a ha]
  show roundBinary64 (secondsTerm a 9568241792 + microTerm a u) = _
  have hs : secondsTerm a 9568241792 = 8589934592 := by
    rw [secondsTerm_eq _ _ (Or.inr ⟨by norm_num, by norm_num⟩)]
    norm_num
  rw [hs]
  have hM1 : (1 : ℚ) / 1000000 - 1 / 2 ^ 53 ≤ microTerm a u := by
    have : (1 : ℚ) / 1000000 ≤ (u : ℚ) / 1000000 :=
      div_le_div_of_nonneg_right hulo (by norm_num)
    linarith [hme.1]
  have hM2 : microTerm a u ≤ 2 / 1000000 + 1 / 2 ^ 53 := by
    have : (u : ℚ) / 1000000 ≤ 2 / 1000000 :=
      div_le_div_of_nonneg_right huhi (by norm_num)
    linarith [hme.2]
  have hlo : (0 : ℚ) < 1 / 1000000 - 1 / 2 ^ 53 := by norm_num
  have hhi : (2 : ℚ) / 1000000 + 1 / 2 ^ 53 < 1 := by norm_num
  have hpos : (0 : ℚ) < 8589934592 + microTerm a u := by linarith
  have h := roundBinary64_eval (8589934592 + microTerm a u) 33 4503599627370497
    (by norm_num)
    (by rw [abs_of_pos hpos]; norm_num; linarith)
    (by rw [abs_of_pos hpos]; norm_num; linarith)
    (by
      have h2 : ((2 : ℚ) ^ ((33 : ℤ) - 52)) = 1 / 524288 := by norm_num
      have h3 : (1 : ℚ) / 1000000 - 1 / 2 ^ 53 > 1 / 1048576 + 1 / 2 ^ 40 := by norm_num
      have h4 : (2 : ℚ) / 1000000 + 1 / 2 ^ 53 < 3 / 1048576 - 1 / 2 ^ 40 := by norm_num
      rw [h2, abs_lt]
      constructor
      · rw [lt_sub_iff_add_lt, lt_div_iff₀ (by norm_num)]
        push_cast
        linarith
      · rw [sub_lt_iff_lt_add, div_lt_iff₀ (by norm_num)]
        push_cast
        linarith)
  rw [h]
  norm_num

/-- With or without contraction, the reading `(1700000000, 999999)` gives
`721692801 - 2 ^ (-20)`: doubles near `721692800` are `2 ^ (-23)` apart. -/
theorem binary64_value_before_second (a : DoubleSemantics)
    (ha : a ≠ DoubleSemantics.exact) :
    SDTAbsoluteTimeGetCurrent a (reading 1700000000 999999) = 721692801 - 1 / 2 ^ 20 := by
  have hme := abs_le.mp (microTerm_error a 999999 (by norm_num) (by norm_num))
  rw [SDTAbsoluteTimeGetCurrent_eq, round_eq_roundBinary64 a ha]
  show roundBinary64 (secondsTerm a 1700000000 + microTerm a 999999) = _
  have hs : secondsTerm a 1700000000 = 721692800 := by
    rw [secondsTerm_eq _ _ (Or.inr ⟨by norm_num, by norm_num⟩)]
    norm_num
  rw [hs]
  have hM1 : (999999 : ℚ) / 1000000 - 1 / 2 ^ 53 ≤ microTerm a 999999 := by
    have := hme.1
    push_cast at this
    linarith
  have hM2 : microTerm a 999999 ≤ 999999 / 1000000 + 1 / 2 ^ 53 := by
    have := hme.2
    push_cast at this
    linarith
  have hlo : (0 : ℚ) < 999999 / 1000000 - 1 / 2 ^ 53 := by norm_num
  have hhi : (999999 : ℚ) / 1000000 + 1 / 2 ^ 53 < 1 := by norm_num
  have hpos : (0 : ℚ) < 721692800 + microTerm a 999999 := by linarith
  have h := roundBinary64_eval (721692800 + microTerm a 999999) 29 6053998004011000
    (by norm_num)
    (by rw [abs_of_pos hpos]; norm_num; linarith)
    (by rw [abs_of_pos hpos]; norm_num; linarith)
    (by
      have h2 : ((2 : ℚ) ^ ((29 : ℤ) - 52)) = 1 / 8388608 := by norm_num
      have h3 : (999999 : ℚ) / 1000000 - 1 / 2 ^ 53 > 1 - 17 / 16 / 1048576 := by norm_num
      have h4 : (999999 : ℚ) / 1000000 + 1 / 2 ^ 53 < 1 - 15 / 16 / 1048576 := by norm_num
      rw [h2, abs_lt]
      constructor
      · rw [lt_sub_iff_add_lt, lt_div_iff₀ (by norm_num)]
        push_cast
        linarith
      · rw [sub_lt_iff_lt_add, div_lt_iff₀ (by norm_num)]
        push_cast
        linarith)
  rw [h]
  norm_num

/-- With or without contraction, the reading `(1700000001, 0)` gives `721692801`. -/
theorem binary64_value_at_second (a : DoubleSemantics) (ha : a ≠ DoubleSemantics.exact) :
    SDTAbsoluteTimeGetCurrent a (reading 1700000001 0) = 721692801 := by
  rw [SDTAbsoluteTimeGetCurrent_eq, round_eq_roundBinary64 a ha]
  show roundBinary64 (secondsTerm a 1700000001 + microTerm a 0) = _
  have hs : secondsTerm a 1700000001 = 721692801 := by
    rw [secondsTerm_eq _ _ (Or.inr ⟨by norm_num, by norm_num⟩)]
    norm_num
  rw [hs, microTerm_zero, add_zero]
  have h := roundBinary64_intCast 721692801 (by norm_num)
  norm_num at h ⊢
  exact h

/-! ## Claims -/

/-- C1 (amended): for every outcome of `gettimeofday` the function returns the
rounded sum of the rounded seconds field minus 978307200 and of the rounded
product of `1.0E-6` and the microseconds field.  In exact arithmetic that is
`tv_sec - 978307200 + tv_usec / 1000000`; as a double (binary64, with or
without contraction), for a normalised reading with
`978307200 - 2 ^ 53 ≤ tv_sec ≤ 2 ^ 53`, it differs from that value by at most
`(|tv_sec - 978307200| + 2) / 2 ^ 53`. -/
theorem SDTAbsoluteTimeGetCurrent_value (a : DoubleSemantics) (g : GettimeofdayOutcome)
    (hr : a = DoubleSemantics.exact
      ∨ (g.tv.normalised ∧ 978307200 - 2 ^ 53 ≤ g.tv.tv_sec ∧ g.tv.tv_sec ≤ 2 ^ 53)) :
    |SDTAbsoluteTimeGetCurrent a g
        - ((g.tv.tv_sec : ℚ) - 978307200 + (g.tv.tv_usec : ℚ) / 1000000)|
      ≤ (|(g.tv.tv_sec : ℚ) - 978307200| + 2) / 2 ^ 53
    ∧ SDTAbsoluteTimeGetCurrent a g
      = a.round (a.round (a.round (g.tv.tv_sec : ℚ) - kCFAbsoluteTimeIntervalSince1970)
        + a.roundProduct (a.round (1 / 1000000) * a.round (g.tv.tv_usec : ℚ)))
    ∧ SDTAbsoluteTimeGetCurrent DoubleSemantics.exact g
      = (g.tv.tv_sec : ℚ) - 978307200 + (g.tv.tv_usec : ℚ) / 1000000
    ∧ kCFAbsoluteTimeIntervalSince1970 = 978307200 :=
  ⟨value_error a g hr, rfl, exact_value g, rfl⟩

/-- Witness of C1 (amended) in binary64 arithmetic at the reading
`(1700000000, 250000)`. -/
theorem SDTAbsoluteTimeGetCurrent_value_witness :
    ((reading 1700000000 250000).tv.normalised
        ∧ 978307200 - 2 ^ 53 ≤ (reading 1700000000 250000).tv.tv_sec
        ∧ (reading 1700000000 250000).tv.tv_sec ≤ 2 ^ 53)
      ∧ |SDTAbsoluteTimeGetCurrent DoubleSemantics.binary64 (reading 1700000000 250000)
          - (((reading 1700000000 250000).tv.tv_sec : ℚ) - 978307200
            + ((reading 1700000000 250000).tv.tv_usec : ℚ) / 1000000)|
        ≤ (|((reading 1700000000 250000).tv.tv_sec : ℚ) - 978307200| + 2) / 2 ^ 53 :=
  ⟨by decide,
    (SDTAbsoluteTimeGetCurrent_value DoubleSemantics.binary64 (reading 1700000000 250000)
      (Or.inr (by decide))).1⟩

/-- C1 (counterexample): as a double, at the normalised reading
`(1700000000, 1)` the function returns `721692800 + 2 ^ (-20)` and not
`1700000000 - 978307200 + 1 / 1000000`: doubles near `721692800` are
`2 ^ (-23)` apart, so `721692800 + 10 ^ (-6)` is rounded to
`721692800 + 8 * 2 ^ (-23)`; the same holds with contraction. -/
theorem SDTAbsoluteTimeGetCurrent_value_rounded :
    (reading 1700000000 1).tv.normalised
      ∧ SDTAbsoluteTimeGetCurrent DoubleSemantics.binary64 (reading 1700000000 1)
        = 721692800 + 1 / 2 ^ 20
      ∧ ¬ (SDTAbsoluteTimeGetCurrent DoubleSemantics.binary64 (reading 1700000000 1)
        = ((reading 1700000000 1).tv.tv_sec : ℚ) - 978307200
          + ((reading 1700000000 1).tv.tv_usec : ℚ) / 1000000)
      ∧ SDTAbsoluteTimeGetCurrent DoubleSemantics.binary64Contracted (reading 1700000000 1)
        = 721692800 + 1 / 2 ^ 20 := by
  have v1 := binary64_value_one_microsecond DoubleSemantics.binary64 (by decide)
  have v2 := binary64_value_one_microsecond DoubleSemantics.binary64Contracted (by decide)
  refine ⟨by decide, ?_, ?_, ?_⟩
  · rw [v1]
    norm_num
  · rw [v1]
    norm_num [reading]
  · rw [v2]
    norm_num

/-- C2: the constant `kCFAbsoluteTimeIntervalSince1970` is the number of seconds
from 1970-01-01 to 2001-01-01 of the Gregorian calendar: 31 years of 365 days and
8 leap days, 86400 seconds a day; the literal is stored exactly in a double. -/
theorem kCFAbsoluteTimeIntervalSince1970_calendar :
    kCFAbsoluteTimeIntervalSince1970 = ((secondsBetweenYears 1970 2001 : ℕ) : ℚ)
      ∧ secondsBetweenYears 1970 2001 = daysBetweenYears 1970 2001 * 86400
      ∧ daysBetweenYears 1970 2001 = 31 * 365 + leapYearsBetween 1970 2001
      ∧ leapYearsBetween 1970 2001 = 8
      ∧ DoubleSemantics.binary64.round kCFAbsoluteTimeIntervalSince1970
        = kCFAbsoluteTimeIntervalSince1970 := by
  have h : secondsBetweenYears 1970 2001 = 978307200 := by decide
  refine ⟨?_, rfl, by decide, by decide, ?_⟩
  · rw [h]
    norm_num [kCFAbsoluteTimeIntervalSince1970]
  · have := roundBinary64_intCast 978307200 (by norm_num)
    simpa [DoubleSemantics.round, kCFAbsoluteTimeIntervalSince1970] using this

/-- C4 (amended): for two normalised readings in lexicographic order the second
returned value is not smaller than the first, so `t2 ≥ t1 - ε` for every
`ε ≥ 0`: in exact arithmetic for all readings, and in binary64 arithmetic (with
or without contraction) for readings with `978307200 - 2 ^ 53 ≤ tv_sec ≤ 2 ^ 53`. -/
theorem SDTAbsoluteTimeGetCurrent_monotone (a : DoubleSemantics) (g1 g2 : GettimeofdayOutcome)
    (h1 : g1.tv.normalised) (h2 : g2.tv.normalised) (hle : g1.tv.le g2.tv)
    (hr : a = DoubleSemantics.exact
      ∨ (978307200 - 2 ^ 53 ≤ g1.tv.tv_sec ∧ g2.tv.tv_sec ≤ 2 ^ 53)) :
    SDTAbsoluteTimeGetCurrent a g1 ≤ SDTAbsoluteTimeGetCurrent a g2
      ∧ ∀ ε : ℚ, 0 ≤ ε →
        SDTAbsoluteTimeGetCurrent a g2 ≥ SDTAbsoluteTimeGetCurrent a g1 - ε := by
  have h := monotone_core a g1.tv g2.tv h1 h2 hle hr g1.status g2.status
  refine ⟨h, ?_⟩
  intro ε hε
  have : SDTAbsoluteTimeGetCurrent a g1 - ε ≤ SDTAbsoluteTimeGetCurrent a g1 := by linarith
  exact le_trans this h

/-- Witness of C4 (amended) in binary64 arithmetic at the readings
`(1700000000, 999999)` and `(1700000001, 0)`. -/
theorem SDTAbsoluteTimeGetCurrent_monotone_witness :
    (reading 1700000000 999999).tv.normalised ∧ (reading 1700000001 0).tv.normalised
      ∧ (reading 1700000000 999999).tv.le (reading 1700000001 0).tv
      ∧ SDTAbsoluteTimeGetCurrent DoubleSemantics.binary64 (reading 1700000000 999999)
        ≤ SDTAbsoluteTimeGetCurrent DoubleSemantics.binary64 (reading 1700000001 0) :=
  ⟨by decide, by decide, by decide,
    (SDTAbsoluteTimeGetCurrent_monotone DoubleSemantics.binary64 (reading 1700000000 999999)
      (reading 1700000001 0) (by decide) (by decide) (by decide)
      (Or.inr ⟨by decide, by decide⟩)).1⟩

/-- C4 (counterexample): in binary64 arithmetic the normalised readings
`(2 ^ 53, 999999)` and `(2 ^ 53 + 1, 0)` are in lexicographic order, and the
value returned for the second is smaller by one than the value returned for the
first, so `t2 ≥ t1 - ε` fails for `ε = 1 / 2`.  The conversion
`(SDTTimeInterval)tv.tv_sec` of `2 ^ 53 + 1` is a tie between `2 ^ 53` and
`2 ^ 53 + 2` and gives `2 ^ 53`, so the second value is `2 ^ 53 - 978307200`;
doubles of that size are one unit apart, so adding `0.999999` to it for the
first reading gives `2 ^ 53 - 978307200 + 1`; the same holds with contraction. -/
theorem SDTAbsoluteTimeGetCurrent_not_monotone_binary64 :
    (reading 9007199254740992 999999).tv.normalised
      ∧ (reading 9007199254740993 0).tv.normalised
      ∧ (reading 9007199254740992 999999).tv.le (reading 9007199254740993 0).tv
      ∧ SDTAbsoluteTimeGetCurrent DoubleSemantics.binary64 (reading 9007199254740992 999999)
        = 9007198276433793
      ∧ SDTAbsoluteTimeGetCurrent DoubleSemantics.binary64 (reading 9007199254740993 0)
        = 9007198276433792
      ∧ ¬ (SDTAbsoluteTimeGetCurrent DoubleSemantics.binary64 (reading 9007199254740992 999999)
        ≤ SDTAbsoluteTimeGetCurrent DoubleSemantics.binary64 (reading 9007199254740993 0))
      ∧ ¬ (SDTAbsoluteTimeGetCurrent DoubleSemantics.binary64 (reading 9007199254740993 0)
        ≥ SDTAbsoluteTimeGetCurrent DoubleSemantics.binary64
            (reading 9007199254740992 999999) - 1 / 2)
      ∧ SDTAbsoluteTimeGetCurrent DoubleSemantics.binary64Contracted
          (reading 9007199254740992 999999) = 9007198276433793
      ∧ SDTAbsoluteTimeGetCurrent DoubleSemantics.binary64Contracted
          (reading 9007199254740993 0) = 9007198276433792 := by
  have v1 := binary64_value_at_two_pow_53 DoubleSemantics.binary64 (by decide)
  have v2 := binary64_value_after_two_pow_53 DoubleSemantics.binary64 (by decide)
  refine ⟨by decide, by decide, by decide, v1, v2, ?_, ?_,
    binary64_value_at_two_pow_53 DoubleSemantics.binary64Contracted (by decide),
    binary64_value_after_two_pow_53 DoubleSemantics.binary64Contracted (by decide)⟩
  · rw [v1, v2]
    norm_num
  · rw [v1, v2]
    norm_num

/-- C5: the returned value is the time interval since 00:00:00 1 January 2001
UTC, in exact and in binary64 arithmetic: the reading `(978307200, 0)` gives
exactly 0, and a normalised reading gives a negative value when
`tv_sec < 978307200` and a non-negative value when `tv_sec ≥ 978307200`. -/
theorem reference_date_sign (a : DoubleSemantics) (g : GettimeofdayOutcome)
    (h : g.tv.normalised) :
    SDTAbsoluteTimeGetCurrent a (reading 978307200 0) = 0
      ∧ (g.tv.tv_sec < 978307200 → SDTAbsoluteTimeGetCurrent a g < 0)
      ∧ (978307200 ≤ g.tv.tv_sec → 0 ≤ SDTAbsoluteTimeGetCurrent a g) := by
  obtain ⟨h0, h1⟩ := h
  have hC : secondsTerm a 978307200 = 0 := by
    rw [secondsTerm_eq a 978307200 (Or.inr ⟨by norm_num, by norm_num⟩)]
    norm_num
  have hm0 := microTerm_nonneg a g.tv.tv_usec h0 h1
  have hm1 := microTerm_le a g.tv.tv_usec h0 h1
  refine ⟨?_, ?_, ?_⟩
  · rw [SDTAbsoluteTimeGetCurrent_eq]
    show a.round (secondsTerm a 978307200 + microTerm a 0) = 0
    rw [hC, microTerm_zero, add_zero, round_zero]
  · intro hlt
    have hs : secondsTerm a g.tv.tv_sec ≤ -1 := by
      have hmono := secondsTerm_mono a (show g.tv.tv_sec ≤ 978307199 by omega)
      have h9 : secondsTerm a 978307199 = -1 := by
        rw [secondsTerm_eq a 978307199 (Or.inr ⟨by norm_num, by norm_num⟩)]
        norm_num
      rwa [h9] at hmono
    have hrep := round_representable a (-1) (-21) (by norm_num) (by norm_num)
    have hle : a.round (secondsTerm a g.tv.tv_sec + microTerm a g.tv.tv_usec)
        ≤ a.round (((-1 : ℤ) : ℚ) * 2 ^ (-21 : ℤ)) :=
      round_mono a (by
        have : (((-1 : ℤ) : ℚ)) * 2 ^ (-21 : ℤ) = -(1 / 2 ^ 21) := by norm_num
        rw [this]
        linarith)
    rw [hrep] at hle
    rw [SDTAbsoluteTimeGetCurrent_eq]
    have hneg : (((-1 : ℤ) : ℚ)) * 2 ^ (-21 : ℤ) < 0 := by norm_num
    exact lt_of_le_of_lt hle hneg
  · intro hge
    have hs : 0 ≤ secondsTerm a g.tv.tv_sec := by
      have hmono := secondsTerm_mono a hge
      rwa [hC] at hmono
    rw [SDTAbsoluteTimeGetCurrent_eq, ← round_zero a]
    exact round_mono a (by linarith)

/-- Witness of C5 in binary64 arithmetic at the reading `(978307199, 999999)`,
the last microsecond before the reference date. -/
theorem reference_date_sign_witness :
    (reading 978307199 999999).tv.normalised
      ∧ SDTAbsoluteTimeGetCurrent DoubleSemantics.binary64 (reading 978307199 999999) < 0 :=
  ⟨by decide,
    (reference_date_sign DoubleSemantics.binary64 (reading 978307199 999999)
      (by decide)).2.1 (by decide)⟩

/-- C6: for every platform primitive, clock state and buffer, the buffer after
`CWASI_clock_gettime_realtime` holds exactly what `clock_gettime` called with
`CLOCK_REALTIME` wrote; only the realtime clock is consulted; the nanoseconds
field is in `[0, 999999999]` whenever that of the primitive is. -/
theorem CWASI_clock_gettime_realtime_delegates {σ : Type} (clock_gettime : ClockGettime σ)
    (s : σ) (tv : timespec) :
    CWASI_clock_gettime_realtime clock_gettime s tv
        = (clock_gettime s clockid_t.CLOCK_REALTIME tv).tp
      ∧ ((clock_gettime s clockid_t.CLOCK_REALTIME tv).tp.validNsec
        → (CWASI_clock_gettime_realtime clock_gettime s tv).validNsec)
      ∧ (∀ other : ClockGettime σ,
        other s clockid_t.CLOCK_REALTIME tv = clock_gettime s clockid_t.CLOCK_REALTIME tv →
        CWASI_clock_gettime_realtime other s tv
          = CWASI_clock_gettime_realtime clock_gettime s tv) := by
  refine ⟨rfl, fun h => h, ?_⟩
  intro other h
  unfold CWASI_clock_gettime_realtime
  rw [h]

/-- Witness of C6 on the model platform, 1700000000.123456789 seconds after the
Unix epoch. -/
theorem CWASI_clock_gettime_realtime_witness :
    CWASI_clock_gettime_realtime modelClock 1700000000123456789 ⟨0, 0⟩
        = ⟨1700000000, 123456789⟩
      ∧ (CWASI_clock_gettime_realtime modelClock 1700000000123456789 ⟨0, 0⟩).validNsec :=
  ⟨by decide,
    (CWASI_clock_gettime_realtime_delegates modelClock 1700000000123456789 ⟨0, 0⟩).2.1
      (by decide)⟩

/-- C7 (amended): the status code of `gettimeofday` does not reach the result:
for every arithmetic, every two status codes and every buffer content the
function returns the same value, the one it computes from the buffer, and no
other result.  In exact arithmetic that value is
`tv_sec - 978307200 + tv_usec / 1000000`; as a double, for a normalised buffer
with `978307200 - 2 ^ 53 ≤ tv_sec ≤ 2 ^ 53`, it differs from it by at most
`(|tv_sec - 978307200| + 2) / 2 ^ 53`. -/
theorem status_code_ignored (a : DoubleSemantics) (status other : ℤ) (tv : timeval) :
    SDTAbsoluteTimeGetCurrent a ⟨status, tv⟩ = SDTAbsoluteTimeGetCurrent a ⟨other, tv⟩
      ∧ SDTAbsoluteTimeGetCurrent a ⟨status, tv⟩
        = a.round (a.round (a.round (tv.tv_sec : ℚ) - kCFAbsoluteTimeIntervalSince1970)
          + a.roundProduct (a.round (1 / 1000000) * a.round (tv.tv_usec : ℚ)))
      ∧ ((a = DoubleSemantics.exact
          ∨ (tv.normalised ∧ 978307200 - 2 ^ 53 ≤ tv.tv_sec ∧ tv.tv_sec ≤ 2 ^ 53)) →
        |SDTAbsoluteTimeGetCurrent a ⟨status, tv⟩
            - ((tv.tv_sec : ℚ) - 978307200 + (tv.tv_usec : ℚ) / 1000000)|
          ≤ (|(tv.tv_sec : ℚ) - 978307200| + 2) / 2 ^ 53)
      ∧ SDTAbsoluteTimeGetCurrent DoubleSemantics.exact ⟨status, tv⟩
        = (tv.tv_sec : ℚ) - 978307200 + (tv.tv_usec : ℚ) / 1000000 :=
  ⟨rfl, rfl, fun hr => value_error a ⟨status, tv⟩ hr, exact_value ⟨status, tv⟩⟩

/-- Witness of C7 (amended) in binary64 arithmetic: the failure status `-1` with
the buffer `(1700000000, 250000)`. -/
theorem status_code_ignored_witness :
    SDTAbsoluteTimeGetCurrent DoubleSemantics.binary64 ⟨-1, ⟨1700000000, 250000⟩⟩
        = SDTAbsoluteTimeGetCurrent DoubleSemantics.binary64 ⟨0, ⟨1700000000, 250000⟩⟩
      ∧ |SDTAbsoluteTimeGetCurrent DoubleSemantics.binary64 ⟨-1, ⟨1700000000, 250000⟩⟩
          - (((1700000000 : ℤ) : ℚ) - 978307200 + ((250000 : ℤ) : ℚ) / 1000000)|
        ≤ (|((1700000000 : ℤ) : ℚ) - 978307200| + 2) / 2 ^ 53 :=
  ⟨(status_code_ignored DoubleSemantics.binary64 (-1) 0 ⟨1700000000, 250000⟩).1,
    (status_code_ignored DoubleSemantics.binary64 (-1) 0 ⟨1700000000, 250000⟩).2.2.1
      (Or.inr (by decide))⟩

/-- C7 (counterexample): as a double, after a failed call (status `-1`) that
leaves `(978307200, 1)` in the buffer the function returns the double of the
literal `1.0E-6`, `4722366482869645 * 2 ^ (-72)`, the value it also returns
after a successful call, and not `978307200 - 978307200 + 1 / 1000000`. -/
theorem status_code_ignored_value_rounded :
    SDTAbsoluteTimeGetCurrent DoubleSemantics.binary64 ⟨-1, ⟨978307200, 1⟩⟩
        = 4722366482869645 / 2 ^ 72
      ∧ SDTAbsoluteTimeGetCurrent DoubleSemantics.binary64 ⟨0, ⟨978307200, 1⟩⟩
        = 4722366482869645 / 2 ^ 72
      ∧ ¬ (SDTAbsoluteTimeGetCurrent DoubleSemantics.binary64 ⟨-1, ⟨978307200, 1⟩⟩
        = ((978307200 : ℤ) : ℚ) - 978307200 + ((1 : ℤ) : ℚ) / 1000000) := by
  have v1 := binary64_value_reference_plus_one DoubleSemantics.binary64 (by decide) (-1)
  have v2 := binary64_value_reference_plus_one DoubleSemantics.binary64 (by decide) 0
  refine ⟨v1, v2, ?_⟩
  rw [v1]
  norm_num

/-- C9: the constant `kCFAbsoluteTimeIntervalSince1904` is the number of seconds
from 1904-01-01 to 2001-01-01 of the Gregorian calendar (97 years of 365 days and
25 leap days, 86400 seconds a day), and exceeds
`kCFAbsoluteTimeIntervalSince1970` by the 2082844800 seconds from 1904-01-01 to
1970-01-01. -/
theorem kCFAbsoluteTimeIntervalSince1904_calendar :
    kCFAbsoluteTimeIntervalSince1904 = ((secondsBetweenYears 1904 2001 : ℕ) : ℚ)
      ∧ secondsBetweenYears 1904 2001 = daysBetweenYears 1904 2001 * 86400
      ∧ daysBetweenYears 1904 2001 = 97 * 365 + leapYearsBetween 1904 2001
      ∧ leapYearsBetween 1904 2001 = 25
      ∧ kCFAbsoluteTimeIntervalSince1904 - kCFAbsoluteTimeIntervalSince1970
        = ((secondsBetweenYears 1904 1970 : ℕ) : ℚ)
      ∧ secondsBetweenYears 1904 1970 = 2082844800
      ∧ DoubleSemantics.binary64.round kCFAbsoluteTimeIntervalSince1904
        = kCFAbsoluteTimeIntervalSince1904 := by
  have h : secondsBetweenYears 1904 2001 = 3061152000 := by decide
  have h2 : secondsBetweenYears 1904 1970 = 2082844800 := by decide
  refine ⟨?_, rfl, by decide, by decide, ?_, h2, ?_⟩
  · rw [h]
    norm_num [kCFAbsoluteTimeIntervalSince1904]
  · rw [h2]
    norm_num [kCFAbsoluteTimeIntervalSince1904, kCFAbsoluteTimeIntervalSince1970]
  · have := roundBinary64_intCast 3061152000 (by norm_num)
    simpa [DoubleSemantics.round, kCFAbsoluteTimeIntervalSince1904] using this

end SDT
